import Mathlib

/-!
Verification development for the moex-history-downloader repository.

The repository downloads historical OHLCV candles from the MOEX ISS CSV
endpoint.  Two pipelines exist: a monthly equity pipeline (`ProcessStocks`,
`getOHLC` in shares.go) and a quarterly derivative pipeline
(`ProcessContracts` in the futures main) sharing a library fetcher
(`Fetcher.Fetch` in internal/history).

We shallowly embed the code:
* dates are modelled as day numbers (days since 1970-01-01) in the proleptic
  Gregorian calendar used by Go's `time` package (UTC, date component only);
* the remote source is a function from row offset to a response, a response
  being either a transport failure or a status code plus the CSV-decoded
  record rows of the body;
* the leaf cell converters (`time.Parse`, `strconv.ParseFloat`,
  `strconv.ParseInt`) are abstract parameters, since they are Go standard
  library functions, not repository code; all structural theorems hold for
  every choice of converters, and concrete small converters are used for
  the executable test instances;
* the per-instrument output file is a `Option (List String)` (absent, or a
  list of lines).
-/

namespace Moex

/-! ### Calendar arithmetic (model of Go `time` date computations)

`daysFromCivil` is the standard civil-from-days algorithm for the proleptic
Gregorian calendar; it agrees with Go's `time.Date(...).Unix()/86400` on the
date component.  `goDate y m d` additionally performs the month/day
normalisation Go's `time.Date` applies (month overflow carries into the
year, day 0 is the last day of the previous month). -/

/-- Day number (days since 1970-01-01) of year `y`, month `m ∈ [1,12]`,
day `d` (day may be out of range; it simply offsets). -/
def daysFromCivil (y m d : Int) : Int :=
  let y2 := if m ≤ 2 then y - 1 else y
  let era := y2 / 400
  let yoe := y2 - era * 400
  let mp := (m + 9) % 12
  let doy := (153 * mp + 2) / 5 + d - 1
  let doe := yoe * 365 + yoe / 4 - yoe / 100 + doy
  era * 146097 + doe - 719468

/-- Model of Go `time.Date (y, m, d, 0, 0, 0, 0, UTC)` restricted to the
date component, as a day number: months are normalised into `[1,12]`
(carrying into the year) and the day offsets freely. -/
def goDate (y m d : Int) : Int :=
  daysFromCivil (y + (m - 1) / 12) ((m - 1) % 12 + 1) 1 + (d - 1)

/-- Model of Go `time.Time.Weekday`: Sunday = 0, …, Saturday = 6
(day number 0 = 1970-01-01 was a Thursday = 4). -/
def weekday (z : Int) : Int := (z + 4) % 7

/-- `thirdFriday` from the futures main (part_000 lines 19-24):
take the 15th of the month, add `(5 - weekday + 7) % 7` days. -/
def thirdFriday (y m : Int) : Int :=
  goDate y m 15 + (5 - weekday (goDate y m 15) + 7) % 7

/-! ### Periods and the two partitioners -/

/-- One fetch unit: ticker plus inclusive [startD, endD] day-number window. -/
structure Period where
  ticker : String
  startD : Int
  endD : Int
deriving DecidableEq, Repr

/-- The quarterly expiry codes, in source order (part_000 line 15). -/
def codes : List String := ["H", "M", "U", "Z"]

/-- The integer interval `[a, b)` as a list, modelling
`for y := a; y < b; y++`. -/
def intRange (a b : Int) : List Int :=
  (List.range (b - a).toNat).map (fun (k : Nat) => a + (k : Int))

/-- Body of the inner loop of `ProcessContracts` (part_000 lines 70-82):
`ic` is the `(i, code)` pair produced by `range codes`; `m := i*3 + 3`;
the previous quarter wraps December into the prior year; the period is
`[thirdFriday(prev) - 1, thirdFriday(cur) - 2]` and the ticker is
`contract + code + (y % 10)`. -/
def quarterPeriod (contract : String) (y : Int) (ic : Nat × String) : Period :=
  let m : Int := (ic.1 : Int) * 3 + 3
  let yBegin := if m - 3 = 0 then y - 1 else y
  let mBegin := if m - 3 = 0 then 12 else m - 3
  { ticker := contract ++ ic.2 ++ toString (Int.tmod y 10)
    startD := thirdFriday yBegin mBegin - 1
    endD := thirdFriday y m - 2 }

/-- All periods emitted (and fetched) by `ProcessContracts` for one contract
root: years `[yearBegin, yearEnd)`, four quarters each, in loop order.
There is no filtering against the current date in the source. -/
def contractPeriods (yearBegin yearEnd : Int) (contract : String) : List Period :=
  (intRange yearBegin yearEnd).flatMap fun y =>
    codes.enum.map (quarterPeriod contract y)

/-- One calendar-month period of `ProcessStocks` (shares.go lines 87-88):
`startDate = Date(y, m, 1)`, `endDate = startDate.AddDate(0, 1, -1)`,
i.e. day 0 of the next month. -/
def monthPeriod (stock : String) (y m : Int) : Period :=
  { ticker := stock, startD := goDate y m 1, endD := goDate y (m + 1) 0 }

/-- All periods fetched by `ProcessStocks` for one stock: years
`[yearStart, yearEnd]` inclusive, months 1..12, skipping
(`continue`, shares.go lines 90-93) any month whose start date is after
`now`. -/
def equityPeriods (yearStart yearEnd now : Int) (stock : String) : List Period :=
  (intRange yearStart (yearEnd + 1)).flatMap fun y =>
    (intRange 1 13).filterMap fun m =>
      if now < goDate y m 1 then none else some (monthPeriod stock y m)

/-! ### The paginated CSV fetcher

Model of `Fetcher.Fetch` (internal/history, part_001 lines 26-122) and of
the inline `getOHLC` of shares.go (lines 162-260 of the equities main).
The two differ in exactly one point: `getOHLC` rejects a response whose
HTTP status is not 200, `Fetcher.Fetch` never inspects the status. -/

/-- Error taxonomy of one fetch, matching the wrapped error sites of the
source.  `network` = `http.Get` failure, `status` = the
`resp.StatusCode != http.StatusOK` branch of the inline `getOHLC`,
`header` = failure reading one of the two CSV header rows, `row` = a CSV
record read failure (field count mismatch), `cell name` = a conversion
failure of the cell resolved for column `name`. -/
inductive FErr where
  | network
  | status
  | header
  | row
  | cell (name : String)
deriving DecidableEq, Repr

/-- Spec taxonomy: NetworkError covers connection failure and non-success
HTTP status. -/
def FErr.isNetwork : FErr → Bool
  | .network => true
  | .status => true
  | _ => false

/-- Spec taxonomy: ParseError covers malformed header/row/cell. -/
def FErr.isParse : FErr → Bool
  | .header => true
  | .row => true
  | .cell _ => true
  | _ => false

/-- One HTTP response: a transport failure, or a status code together with
the CSV-decoded records of the body (first record = metadata banner,
second = column-name header, rest = data rows). -/
inductive Resp where
  | transportErr
  | ok (stat : Nat) (rows : List (List String))
deriving DecidableEq, Repr

/-- The leaf cell converters, abstract stand-ins for `time.Parse` (dates),
`strconv.ParseFloat` (prices) and `strconv.ParseInt` (volumes). -/
structure Parsers (D P V : Type) where
  date : String → Option D
  price : String → Option P
  vol : String → Option V

/-- One OHLCV record, as produced by one parsed data row. -/
structure Candle (D P V : Type) where
  date : D
  open' : P
  high : P
  low : P
  close : P
  volume : V
deriving DecidableEq, Repr

/-- Go map semantics of `columns[name]` where `columns` is built by
`for indx, name := range column { columns[name] = indx }`: the index of the
LAST occurrence of `name` in the header, and `0` (the zero value) when the
name does not occur. -/
def colIndex (header : List String) (name : String) : Nat :=
  header.enum.foldl (fun acc p => if p.2 = name then p.1 else acc) 0

/-- Cell access `row[i]`; the CSV reader's field-count check guarantees
`i < row.length` at every use in well-formed pages. -/
def cellAt (row : List String) (i : Nat) : String := row.getD i ""

/-- The column names resolved by the row decoder, in source order. -/
def requiredCols : List String :=
  ["begin", "open", "high", "low", "close", "volume"]

/-- Decode one data row (part_001 lines 74-111): resolve each of the six
cells by name lookup and convert; the first conversion failure aborts with
the corresponding cell error. -/
def parseRow (ps : Parsers D P V) (header row : List String) :
    Except FErr (Candle D P V) :=
  match ps.date (cellAt row (colIndex header "begin")) with
  | none => .error (.cell "begin")
  | some date =>
    match ps.price (cellAt row (colIndex header "open")) with
    | none => .error (.cell "open")
    | some o =>
      match ps.price (cellAt row (colIndex header "high")) with
      | none => .error (.cell "high")
      | some h =>
        match ps.price (cellAt row (colIndex header "low")) with
        | none => .error (.cell "low")
        | some l =>
          match ps.price (cellAt row (colIndex header "close")) with
          | none => .error (.cell "close")
          | some c =>
            match ps.vol (cellAt row (colIndex header "volume")) with
            | none => .error (.cell "volume")
            | some v => .ok ⟨date, o, h, l, c, v⟩

/-- Decode all data rows of one page (part_001 lines 65-113).  Setting
`reader.FieldsPerRecord = 0` right before reading the column header makes
the CSV reader require every subsequent record to have exactly as many
fields as the header; a mismatch is a read error.  Any row failure aborts
the page. -/
def parseRows (ps : Parsers D P V) (header : List String) :
    List (List String) → Except FErr (List (Candle D P V))
  | [] => .ok []
  | r :: rs =>
    if r.length ≠ header.length then .error .row
    else
      match parseRow ps header r with
      | .error e => .error e
      | .ok c =>
        match parseRows ps header rs with
        | .error e => .error e
        | .ok cs => .ok (c :: cs)

/-- Process one HTTP response into the page's candles.  `checkStat = true`
models the inline `getOHLC` of shares.go (which rejects a non-200 status,
lines 181-183); `checkStat = false` models `Fetcher.Fetch`, which never
looks at the status code.  The first CSV record (metadata banner) is
discarded; its absence, or the absence of the column header, is a header
read error. -/
def pageCandles (checkStat : Bool) (ps : Parsers D P V) (r : Resp) :
    Except FErr (List (Candle D P V)) :=
  match r with
  | .transportErr => .error .network
  | .ok stat rows =>
    if checkStat && stat ≠ 200 then .error .status
    else
      match rows with
      | [] => .error .header
      | [_banner] => .error .header
      | _banner :: header :: dataRows => parseRows ps header dataRows

/-- The page obtained at row offset `o` from source `src`. -/
def batchAt (checkStat : Bool) (ps : Parsers D P V) (src : Nat → Resp)
    (o : Nat) : Except FErr (List (Candle D P V)) :=
  pageCandles checkStat ps (src o)

/-- The candles of a page result, `[]` on error (used only to state the
concatenation property). -/
def batchOr : Except FErr (List (Candle D P V)) → List (Candle D P V)
  | .ok b => b
  | .error _ => []

/-- The pagination loop shared by both fetchers (part_001 lines 32-119):
request the page at `start`; on error abort; otherwise accumulate the
batch, stop if the batch has fewer than 500 rows, else advance `start` by
the batch size.  `fuel` bounds the number of iterations we unfold: `none`
means the loop did not finish within `fuel` requests.  Alongside the
records we return the list of requested offsets. -/
def fetchLoop (checkStat : Bool) (ps : Parsers D P V) (src : Nat → Resp) :
    Nat → Nat → List Nat → List (Candle D P V) →
    Option (List Nat × Except FErr (List (Candle D P V)))
  | 0, _, _, _ => none
  | fuel + 1, start, offs, acc =>
    match batchAt checkStat ps src start with
    | .error e => some (offs ++ [start], .error e)
    | .ok batch =>
      if batch.length < 500 then some (offs ++ [start], .ok (acc ++ batch))
      else fetchLoop checkStat ps src fuel (start + batch.length)
        (offs ++ [start]) (acc ++ batch)

/-- `Fetcher.Fetch` for one instrument-period: offsets start at 0, the
status code is not checked. -/
def Fetch (ps : Parsers D P V) (src : Nat → Resp) (fuel : Nat) :
    Option (List Nat × Except FErr (List (Candle D P V))) :=
  fetchLoop false ps src fuel 0 [] []

/-- The inline `getOHLC` of shares.go: same loop, but a non-200 status
fails the fetch. -/
def getOHLC (ps : Parsers D P V) (src : Nat → Resp) (fuel : Nat) :
    Option (List Nat × Except FErr (List (Candle D P V))) :=
  fetchLoop true ps src fuel 0 [] []

/-- The offset-advance rule of the loop: a parsed page advances by its row
count, an erroring page leaves the offset unchanged (the loop aborts
there). -/
def stepOff (checkStat : Bool) (ps : Parsers D P V) (src : Nat → Resp)
    (o : Nat) : Nat :=
  match batchAt checkStat ps src o with
  | .ok b => o + b.length
  | .error _ => o

/-- The offset reached after `k` steps of the loop starting at offset `o`. -/
def traceOffFrom (checkStat : Bool) (ps : Parsers D P V) (src : Nat → Resp) :
    Nat → Nat → Nat
  | o, 0 => o
  | o, k + 1 => traceOffFrom checkStat ps src (stepOff checkStat ps src o) k

/-! ### The per-instrument output file

One file is modelled as `Option (List String)`: `none` = the file does not
exist, `some ls` = it exists with lines `ls`. -/

/-- The fixed header line written on file creation. -/
def headerLine : String := "<DATE>,<TIME>,<OPEN>,<HIGH>,<LOW>,<CLOSE>,<VOL>"

/-- A file. -/
abbrev FS := Option (List String)

/-- `createOrAppendFile` of shares.go (lines 23-46): if the file does not
exist, create it and, when `writeHeader`, write the header line; otherwise
open it with `O_APPEND|O_WRONLY`, leaving its content untouched. -/
def createOrAppendShares (fs : FS) (writeHeader : Bool) : FS :=
  match fs with
  | none => if writeHeader then some [headerLine] else some []
  | some c => some c

/-- `createOrAppendFile` of the futures main (part_000 lines 27-32): same,
but never writes a header. -/
def createOrAppendContracts (fs : FS) : FS :=
  match fs with
  | none => some []
  | some c => some c

/-- Writing lines through an open append handle. -/
def appendLines (fs : FS) (ls : List String) : FS :=
  match fs with
  | none => some ls
  | some c => some (c ++ ls)

/-- File effect of one equity worker (shares.go lines 74-114):
`createOrAppendFile(name, true)` once, then the formatted lines of each
period appended in order through the held-open handle.
`periodLines` is the list, per period, of the data lines written for it. -/
def sharesWorkerFile (fs0 : FS) (periodLines : List (List String)) : FS :=
  periodLines.foldl appendLines (createOrAppendShares fs0 true)

/-- File effect of one derivative worker (part_000 lines 45-108):
`os.Remove` the file (stale content discarded), `os.Create` a fresh one,
write the header, close; then for each period reopen via
`createOrAppendFile` and append that period's lines. -/
def contractsWorkerFile (fs0 : FS) (periodLines : List (List String)) : FS :=
  let fsRemoved : FS := none
  let fsCreated := appendLines (some []) [headerLine]
  let _ := fs0
  let _ := fsRemoved
  periodLines.foldl (fun fs ls => appendLines (createOrAppendContracts fs) ls)
    fsCreated

/-! ### Concrete instances used by the executable test cases

The abstract converters are instantiated with small total functions: a
"date" parses iff it starts with `2`, prices and volumes parse via
`String.toNat?`. -/

/-- Concrete date converter for test instances: accepts exactly the
strings whose first character is `2`. -/
def dParse (s : String) : Option String :=
  match s.data with
  | '2' :: _ => some s
  | _ => none

/-- Value of a decimal digit character. -/
def digitVal (c : Char) : Option Nat :=
  if c = '0' then some 0
  else if c = '1' then some 1
  else if c = '2' then some 2
  else if c = '3' then some 3
  else if c = '4' then some 4
  else if c = '5' then some 5
  else if c = '6' then some 6
  else if c = '7' then some 7
  else if c = '8' then some 8
  else if c = '9' then some 9
  else none

/-- Concrete numeric converter for test instances: decimal digits only. -/
def nParse (s : String) : Option Nat :=
  s.data.foldl
    (fun acc c =>
      match acc, digitVal c with
      | some n, some d => some (n * 10 + d)
      | _, _ => none)
    (some 0)

/-- Concrete converter bundle for test instances. -/
def testParsers : Parsers String Nat Nat := ⟨dParse, nParse, nParse⟩

/-- A canonical column header containing all six expected names. -/
def hdr6 : List String := ["begin", "open", "high", "low", "close", "volume"]

/-- A data row matching `hdr6` that converts under `testParsers`. -/
def rowA : List String := ["2t", "1", "2", "3", "4", "5"]

/-- The candle `rowA` decodes to under `testParsers` with `hdr6`. -/
def candleA : Candle String Nat Nat := ⟨"2t", 1, 2, 3, 4, 5⟩

/-- A well-formed page body with `n` copies of `rowA`. -/
def pageBody (n : Nat) : List (List String) :=
  ["banner"] :: hdr6 :: List.replicate n rowA

/-! ### Supporting lemmas -/

/-- Full characterisation of a finished pagination loop: the offsets
decompose as `offs0 ++ tail`; `tail` starts at `start`; each requested
offset except the last produced a full (≥ 500 row) page and the next
offset advances by exactly that page's row count; the last page either
errored (and the loop result is that error) or parsed below 500 rows (and
the result is the accumulator followed by all batches in request order). -/
lemma fetchLoop_spec {D P V : Type} (cs : Bool) (ps : Parsers D P V)
    (src : Nat → Resp) :
    ∀ (fuel start : Nat) (offs0 : List Nat) (acc : List (Candle D P V)) offs res,
      fetchLoop cs ps src fuel start offs0 acc = some (offs, res) →
      ∃ tail, offs = offs0 ++ tail ∧ tail.head? = some start ∧
        (∀ k o o', tail[k]? = some o → tail[k + 1]? = some o' →
          ∃ b, batchAt cs ps src o = .ok b ∧ 500 ≤ b.length ∧
            o' = o + b.length) ∧
        ∃ olast, tail.getLast? = some olast ∧
          ((∃ e, res = .error e ∧ batchAt cs ps src olast = .error e) ∨
           (∃ b, batchAt cs ps src olast = .ok b ∧ b.length < 500 ∧
             res = .ok (acc ++
               (tail.map (fun o => batchOr (batchAt cs ps src o))).flatten))) := by
  intro fuel
  induction fuel with
  | zero => intro start offs0 acc offs res h; simp [fetchLoop] at h
  | succ fuel ih =>
    intro start offs0 acc offs res h
    rw [fetchLoop] at h
    cases hb : batchAt cs ps src start with
    | error e =>
      rw [hb] at h
      simp only [Option.some.injEq, Prod.mk.injEq] at h
      obtain ⟨hoffs, hres⟩ := h
      refine ⟨[start], by simp [hoffs.symm], by simp, ?_, start, by simp, ?_⟩
      · intro k o o' h1 h2
        rcases k with _ | k <;> simp at h2
      · exact Or.inl ⟨e, hres.symm, hb⟩
    | ok batch =>
      rw [hb] at h
      simp only [] at h
      by_cases hlen : batch.length < 500
      · simp only [if_pos hlen, Option.some.injEq, Prod.mk.injEq] at h
        obtain ⟨hoffs, hres⟩ := h
        refine ⟨[start], by simp [hoffs.symm], by simp, ?_, start, by simp, ?_⟩
        · intro k o o' h1 h2
          rcases k with _ | k <;> simp at h2
        · exact Or.inr ⟨batch, hb, hlen, by simp [hres.symm, batchOr, hb]⟩
      · rw [if_neg hlen] at h
        obtain ⟨tail', htoffs, hthead, htadj, olast, htlast, htres⟩ :=
          ih (start + batch.length) (offs0 ++ [start]) (acc ++ batch) offs res h
        obtain ⟨o1, rest, rfl⟩ : ∃ o1 rest, tail' = o1 :: rest := by
          cases tail' with
          | nil => simp at hthead
          | cons a t => exact ⟨a, t, rfl⟩
        have ho1 : o1 = start + batch.length := by
          simpa using hthead
        refine ⟨start :: o1 :: rest, by simp [htoffs], by simp, ?_, olast, ?_, ?_⟩
        · intro k o o' h1 h2
          rcases k with _ | k
          · rw [List.getElem?_cons_zero, Option.some.injEq] at h1
            rw [List.getElem?_cons_succ, List.getElem?_cons_zero,
              Option.some.injEq] at h2
            subst h1
            subst h2
            exact ⟨batch, hb, by omega, by omega⟩
          · rw [List.getElem?_cons_succ] at h1
            rw [List.getElem?_cons_succ] at h2
            exact htadj k o o' h1 h2
        · rw [List.getLast?_cons_cons]
          exact htlast
        · rcases htres with ⟨e, hres, hbe⟩ | ⟨b, hbo, hblen, hres⟩
          · exact Or.inl ⟨e, hres, hbe⟩
          · refine Or.inr ⟨b, hbo, hblen, ?_⟩
            rw [hres]
            simp [batchOr, hb]

/-- Every requested offset is either the last one or has a successor in the
request list. -/
lemma last_or_next {α : Type} (l : List α) (k : Nat) (o : α)
    (h : l[k]? = some o) : l.getLast? = some o ∨ ∃ o', l[k + 1]? = some o' := by
  have hk : k < l.length := (List.getElem?_eq_some.mp h).1
  by_cases h2 : k + 1 < l.length
  · right
    exact ⟨l[k + 1], List.getElem?_eq_getElem h2⟩
  · left
    have hk1 : k = l.length - 1 := by omega
    rw [List.getLast?_eq_getElem? l, ← hk1]
    exact h

/-- If `p` precedes the head of a chained list of well-formed periods, it
precedes every element. -/
lemma chain_head_lt_all :
    ∀ (l : List Period) (p : Period),
      (∀ q ∈ l, q.startD ≤ q.endD) →
      List.Chain' (fun a b => a.endD < b.startD) l →
      (∀ b ∈ l.head?, p.endD < b.startD) →
      ∀ q ∈ l, p.endD < q.startD := by
  intro l
  induction l with
  | nil => intro p _ _ _ q hq; simp at hq
  | cons a t ih =>
    intro p hse hch hhd q hq
    rw [List.chain'_cons'] at hch
    obtain ⟨hat, hcht⟩ := hch
    have hpa : p.endD < a.startD := hhd a rfl
    rcases List.mem_cons.mp hq with rfl | hq'
    · exact hpa
    · have haq := ih a (fun r hr => hse r (List.mem_cons_of_mem _ hr)) hcht
        (fun b hb => hat b hb) q hq'
      have h2 : a.startD ≤ a.endD := hse a (List.mem_cons_self a t)
      omega

/-- A chained list of well-formed periods is pairwise strictly ordered. -/
lemma pairwise_of_chain :
    ∀ l : List Period, (∀ p ∈ l, p.startD ≤ p.endD) →
      List.Chain' (fun a b => a.endD < b.startD) l →
      List.Pairwise (fun a b => a.endD < b.startD) l := by
  intro l
  induction l with
  | nil => intro _ _; exact List.Pairwise.nil
  | cons p t ih =>
    intro hse hch
    rw [List.chain'_cons'] at hch
    obtain ⟨hhd, hcht⟩ := hch
    refine List.Pairwise.cons ?_
      (ih (fun q hq => hse q (List.mem_cons_of_mem _ hq)) hcht)
    exact chain_head_lt_all t p (fun q hq => hse q (List.mem_cons_of_mem _ hq))
      hcht hhd

lemma intRange_eq_nil {a b : Int} (h : b ≤ a) : intRange a b = [] := by
  have : (b - a).toNat = 0 := by omega
  simp [intRange, this]

lemma intRange_eq_cons {a b : Int} (h : a < b) :
    intRange a b = a :: intRange (a + 1) b := by
  unfold intRange
  have h1 : (b - a).toNat = (b - (a + 1)).toNat + 1 := by omega
  rw [h1, List.range_succ_eq_map, List.map_cons, List.map_map]
  congr 1
  · norm_num
  · apply List.map_congr_left
    intro k _
    show a + ((k.succ : Nat) : Int) = a + 1 + (k : Int)
    omega

lemma mem_intRange {a b x : Int} : x ∈ intRange a b ↔ a ≤ x ∧ x < b := by
  simp only [intRange, List.mem_map, List.mem_range]
  constructor
  · rintro ⟨k, hk, rfl⟩
    omega
  · intro ⟨h1, h2⟩
    exact ⟨(x - a).toNat, by omega, by omega⟩

lemma foldl_appendLines (ls : List String) :
    ∀ pls : List (List String),
      pls.foldl appendLines (some ls) = some (ls ++ pls.flatten) := by
  intro pls
  induction pls generalizing ls with
  | nil => simp [appendLines]
  | cons pl pls ih =>
    rw [List.foldl_cons]
    show pls.foldl appendLines (some (ls ++ pl)) = _
    rw [ih (ls ++ pl)]
    simp

lemma foldl_contractsAppend (ls : List String) :
    ∀ pls : List (List String),
      pls.foldl (fun fs l => appendLines (createOrAppendContracts fs) l)
        (some ls) = some (ls ++ pls.flatten) := by
  intro pls
  induction pls generalizing ls with
  | nil => simp
  | cons pl pls ih =>
    rw [List.foldl_cons]
    show pls.foldl _ (some (ls ++ pl)) = _
    rw [ih (ls ++ pl)]
    simp

/-- Parsing a page of `n` identical well-formed rows yields `n` identical
candles. -/
lemma parseRows_replicate {D P V : Type} (ps : Parsers D P V)
    (header r : List String) (c : Candle D P V)
    (hlen : r.length = header.length) (hr : parseRow ps header r = .ok c) :
    ∀ n, parseRows ps header (List.replicate n r) = .ok (List.replicate n c) := by
  intro n
  induction n with
  | zero => simp [parseRows]
  | succ n ih =>
    rw [List.replicate_succ, parseRows, if_neg (by omega), hr, ih,
      List.replicate_succ]

/-! ### Calendar facts -/

/-- `goDate` is linear in the day argument. -/
lemma goDate_day_linear (y m d : Int) : goDate y m d = goDate y m 1 + (d - 1) := by
  simp only [goDate]
  ring

/-- Every month of a valid month number has at least 28 days. -/
lemma goDate_month_step (y m : Int) (h1 : 1 ≤ m) (h2 : m ≤ 12) :
    goDate y m 1 + 28 ≤ goDate y (m + 1) 1 := by
  interval_cases m <;> (simp only [goDate, daysFromCivil]; norm_num; omega)

/-- December rolls into January of the next year. -/
lemma goDate_dec_roll (y d : Int) : goDate y 13 d = goDate (y + 1) 1 d := by
  simp only [goDate]
  norm_num

/-- The third Friday lies within days 15..21 of its month. -/
lemma thirdFriday_window (y m : Int) :
    goDate y m 15 ≤ thirdFriday y m ∧ thirdFriday y m ≤ goDate y m 15 + 6 := by
  simp only [thirdFriday, weekday]
  omega

lemma tf_gap_q1 (y : Int) : thirdFriday (y - 1) 12 + 1 ≤ thirdFriday y 3 := by
  simp only [thirdFriday, weekday, goDate, daysFromCivil]
  norm_num
  omega

lemma tf_gap_q2 (y : Int) : thirdFriday y 3 + 1 ≤ thirdFriday y 6 := by
  simp only [thirdFriday, weekday, goDate, daysFromCivil]
  norm_num
  omega

lemma tf_gap_q3 (y : Int) : thirdFriday y 6 + 1 ≤ thirdFriday y 9 := by
  simp only [thirdFriday, weekday, goDate, daysFromCivil]
  norm_num
  omega

lemma tf_gap_q4 (y : Int) : thirdFriday y 9 + 1 ≤ thirdFriday y 12 := by
  simp only [thirdFriday, weekday, goDate, daysFromCivil]
  norm_num
  omega

/-! ### Ordering of the derivative periods -/

lemma codes_enum : codes.enum = [(0, "H"), (1, "M"), (2, "U"), (3, "Z")] := rfl

lemma contract_unfold {a b : Int} (c : String) (h : a < b) :
    contractPeriods a b c =
      codes.enum.map (quarterPeriod c a) ++ contractPeriods (a + 1) b c := by
  rw [contractPeriods, intRange_eq_cons h, List.flatMap_cons, contractPeriods]

lemma contract_head (c : String) (a b : Int) (h : a < b) :
    (contractPeriods a b c).head? = some (quarterPeriod c a (0, "H")) := by
  rw [contract_unfold c h, codes_enum]
  rfl

/-- Every emitted derivative period satisfies start ≤ end: the previous
quarter's third Friday (minus one day) precedes the current quarter's
third Friday (minus two days). -/
lemma contract_wf (c : String) (yb ye : Int) :
    ∀ p ∈ contractPeriods yb ye c, p.startD ≤ p.endD := by
  intro p hp
  rw [contractPeriods] at hp
  simp only [List.mem_flatMap, List.mem_map] at hp
  obtain ⟨y, _, ic, hic, rfl⟩ := hp
  rw [codes_enum] at hic
  fin_cases hic
  · have h1 := tf_gap_q1 y
    simp only [quarterPeriod]
    norm_num
    omega
  · have h1 := tf_gap_q2 y
    simp only [quarterPeriod]
    norm_num
    omega
  · have h1 := tf_gap_q3 y
    simp only [quarterPeriod]
    norm_num
    omega
  · have h1 := tf_gap_q4 y
    simp only [quarterPeriod]
    norm_num
    omega

lemma contract_chain_aux (c : String) :
    ∀ (n : Nat) (a : Int),
      List.Chain' (fun p q => p.endD < q.startD)
        (contractPeriods a (a + (n : Int)) c) := by
  intro n
  induction n with
  | zero =>
    intro a
    rw [contractPeriods, intRange_eq_nil (by omega)]
    simp
  | succ n ih =>
    intro a
    rw [contract_unfold c (by omega : a < a + ((n + 1 : Nat) : Int))]
    rw [List.chain'_append]
    refine ⟨?_, ?_, ?_⟩
    · rw [codes_enum]
      simp only [List.map_cons, List.map_nil, List.chain'_cons,
        List.chain'_singleton, and_true]
      refine ⟨?_, ?_, ?_⟩ <;> (simp only [quarterPeriod]; norm_num)
    · have h1 : a + ((n + 1 : Nat) : Int) = (a + 1) + (n : Int) := by omega
      rw [h1]
      exact ih (a + 1)
    · intro x hx q hq
      rw [codes_enum] at hx
      simp only [List.map_cons, List.map_nil, List.getLast?_cons_cons,
        List.getLast?_singleton, Option.mem_def, Option.some.injEq] at hx
      subst hx
      rcases Nat.eq_zero_or_pos n with hn | hn
      · subst hn
        rw [contractPeriods, intRange_eq_nil (by omega)] at hq
        simp at hq
      · rw [contract_head c (a + 1) _ (by omega)] at hq
        simp only [Option.mem_def, Option.some.injEq] at hq
        subst hq
        simp only [quarterPeriod]
        norm_num

lemma contract_chain (c : String) (yb ye : Int) :
    List.Chain' (fun p q => p.endD < q.startD) (contractPeriods yb ye c) := by
  rcases le_or_lt yb ye with h | h
  · have h1 : ye = yb + ((ye - yb).toNat : Int) := by omega
    rw [h1]
    exact contract_chain_aux c (ye - yb).toNat yb
  · rw [contractPeriods, intRange_eq_nil (by omega)]
    simp

/-! ### Ordering of the equity periods -/

/-- The unfiltered month grid of `ProcessStocks` (before the future-month
skip). -/
def equityAllPeriods (yearStart yearEnd : Int) (stock : String) : List Period :=
  (intRange yearStart (yearEnd + 1)).flatMap fun y =>
    (intRange 1 13).map (monthPeriod stock y)

lemma filterMap_ite_sublist {α β : Type} (l : List α) (f : α → β)
    (c : α → Prop) [DecidablePred c] :
    List.Sublist (l.filterMap fun a => if c a then none else some (f a))
      (l.map f) := by
  induction l with
  | nil => simp
  | cons a l ih =>
    rw [List.map_cons, List.filterMap_cons]
    by_cases h : c a
    · rw [if_pos h]
      exact ih.cons _
    · rw [if_neg h]
      exact ih.cons₂ _

lemma flatMap_sublist {α β : Type} (l : List α) (f g : α → List β)
    (h : ∀ a ∈ l, List.Sublist (f a) (g a)) :
    List.Sublist (l.flatMap f) (l.flatMap g) := by
  induction l with
  | nil => simp
  | cons a l ih =>
    rw [List.flatMap_cons, List.flatMap_cons]
    exact (h a (List.mem_cons_self a l)).append
      (ih fun x hx => h x (List.mem_cons_of_mem _ hx))

/-- The future-month skip only removes elements from the month grid. -/
lemma equityPeriods_sublist (ys ye now : Int) (s : String) :
    List.Sublist (equityPeriods ys ye now s) (equityAllPeriods ys ye s) := by
  rw [equityPeriods, equityAllPeriods]
  refine flatMap_sublist _ _ _ ?_
  intro y _
  exact filterMap_ite_sublist (intRange 1 13) (monthPeriod s y)
    (fun m => now < goDate y m 1)

lemma intRange_head {a b : Int} (h : a < b) :
    (intRange a b).head? = some a := by
  rw [intRange_eq_cons h]
  rfl

lemma intRange_1_13 :
    intRange 1 13 = [1, 2, 3, 4, 5, 6, 7, 8, 9, 10, 11, 12] := by decide

/-- Adjacent elements of the month grid within one year. -/
lemma month_link (s : String) (y m : Int) :
    (monthPeriod s y m).endD < (monthPeriod s y (m + 1)).startD := by
  simp only [monthPeriod, goDate]
  omega

/-- Dec of year `y` ends strictly before Jan of year `y+1` starts. -/
lemma month_link_year (s : String) (y : Int) :
    (monthPeriod s y 12).endD < (monthPeriod s (y + 1) 1).startD := by
  simp only [monthPeriod, goDate]
  norm_num

lemma month_wf (s : String) (y m : Int) (h1 : 1 ≤ m) (h2 : m ≤ 12) :
    (monthPeriod s y m).startD ≤ (monthPeriod s y m).endD := by
  have h3 := goDate_month_step y m h1 h2
  have h4 := goDate_day_linear y (m + 1) 0
  simp only [monthPeriod]
  omega

lemma equityAll_wf (ys ye : Int) (s : String) :
    ∀ p ∈ equityAllPeriods ys ye s, p.startD ≤ p.endD := by
  intro p hp
  rw [equityAllPeriods] at hp
  simp only [List.mem_flatMap, List.mem_map] at hp
  obtain ⟨y, _, m, hm, rfl⟩ := hp
  rw [mem_intRange] at hm
  exact month_wf s y m (by omega) (by omega)

lemma month_block_chain (s : String) (y : Int) :
    List.Chain' (fun p q => p.endD < q.startD)
      ((intRange 1 13).map (monthPeriod s y)) := by
  rw [intRange_1_13]
  simp only [List.map_cons, List.map_nil, List.chain'_cons,
    List.chain'_singleton, and_true]
  refine ⟨?_, ?_, ?_, ?_, ?_, ?_, ?_, ?_, ?_, ?_, ?_⟩ <;>
    exact month_link s y _

lemma equityAll_unfold {a b : Int} (s : String) (h : a < b + 1) :
    equityAllPeriods a b s =
      (intRange 1 13).map (monthPeriod s a) ++ equityAllPeriods (a + 1) b s := by
  rw [equityAllPeriods, intRange_eq_cons h, List.flatMap_cons, equityAllPeriods]

lemma equityAll_head (s : String) (a b : Int) (h : a < b + 1) :
    (equityAllPeriods a b s).head? = some (monthPeriod s a 1) := by
  rw [equityAll_unfold s h, intRange_1_13]
  rfl

lemma equityAll_chain_aux (s : String) :
    ∀ (n : Nat) (a : Int),
      List.Chain' (fun p q => p.endD < q.startD)
        (equityAllPeriods a (a + (n : Int) - 1) s) := by
  intro n
  induction n with
  | zero =>
    intro a
    rw [equityAllPeriods, intRange_eq_nil (by omega)]
    simp
  | succ n ih =>
    intro a
    rw [equityAll_unfold s (by omega : a < (a + ((n + 1 : Nat) : Int) - 1) + 1)]
    rw [List.chain'_append]
    refine ⟨month_block_chain s a, ?_, ?_⟩
    · have h1 : a + ((n + 1 : Nat) : Int) - 1 = (a + 1) + (n : Int) - 1 := by
        omega
      rw [h1]
      exact ih (a + 1)
    · intro x hx q hq
      rw [intRange_1_13] at hx
      simp only [List.map_cons, List.map_nil, List.getLast?_cons_cons,
        List.getLast?_singleton, Option.mem_def, Option.some.injEq] at hx
      subst hx
      rcases Nat.eq_zero_or_pos n with hn | hn
      · subst hn
        rw [equityAllPeriods, intRange_eq_nil (by omega)] at hq
        simp at hq
      · rw [equityAll_head s (a + 1) _ (by omega)] at hq
        simp only [Option.mem_def, Option.some.injEq] at hq
        subst hq
        exact month_link_year s a

lemma equityAll_chain (ys ye : Int) (s : String) :
    List.Chain' (fun p q => p.endD < q.startD) (equityAllPeriods ys ye s) := by
  rcases le_or_lt ys (ye + 1) with h | h
  · have h1 : ye = ys + ((ye + 1 - ys).toNat : Int) - 1 := by omega
    rw [h1]
    exact equityAll_chain_aux s (ye + 1 - ys).toNat ys
  · rw [equityAllPeriods, intRange_eq_nil (by omega)]
    simp

/-! ### Claim theorems: partitioning -/

/-- C6: for every year and valid month, `thirdFriday` returns a Friday
whose day of month lies between 15 and 21 inclusive, and any Friday on a
day of month between 15 and 21 equals it — it is the third Friday of that
month. -/
theorem c6_third_friday (y m : Int) (_h1 : 1 ≤ m) (_h2 : m ≤ 12) :
    weekday (thirdFriday y m) = 5 ∧
    (∃ d, 15 ≤ d ∧ d ≤ 21 ∧ thirdFriday y m = goDate y m d) ∧
    (∀ z d, weekday z = 5 → 15 ≤ d → d ≤ 21 → z = goDate y m d →
      z = thirdFriday y m) := by
  have h15 := goDate_day_linear y m 15
  refine ⟨?_, ?_, ?_⟩
  · simp only [thirdFriday, weekday]
    omega
  · refine ⟨15 + (5 - weekday (goDate y m 15) + 7) % 7, ?_, ?_, ?_⟩
    · simp only [weekday]
      omega
    · simp only [weekday]
      omega
    · have hd := goDate_day_linear y m
        (15 + (5 - weekday (goDate y m 15) + 7) % 7)
      simp only [thirdFriday, weekday] at *
      omega
  · intro z d hz hd15 hd21 hzd
    have hd := goDate_day_linear y m d
    rw [hd] at hzd
    simp only [thirdFriday, weekday] at *
    omega

/-- C6 witness: in March 2024 the computed third Friday is 2024-03-15, a
Friday with day of month 15 (the known calendar third Friday). -/
theorem c6_witness :
    weekday (thirdFriday 2024 3) = 5 ∧
    (∃ d, 15 ≤ d ∧ d ≤ 21 ∧ thirdFriday 2024 3 = goDate 2024 3 d) ∧
    thirdFriday 2024 3 = goDate 2024 3 15 := by
  have h := c6_third_friday 2024 3 (by norm_num) (by norm_num)
  exact ⟨h.1, h.2.1, by decide⟩

/-- C5: in derivative mode, for every root, every year of
`[yearStart, yearEnd)` and every quarter index `i < 4` (codes H,M,U,Z ↦
months 3,6,9,12), the emitted period starts at the previous quarter's
third Friday minus one day (December of the prior year for the first
quarter), ends at the current quarter's third Friday minus two days, and
carries ticker `root ++ code ++ (y % 10)`. -/
theorem c5_contract_partition (yb ye y : Int) (c : String) (i : Nat)
    (hy1 : yb ≤ y) (hy2 : y < ye) (hi : i < 4) :
    ∃ code, codes[i]? = some code ∧
      quarterPeriod c y (i, code) ∈ contractPeriods yb ye c ∧
      (quarterPeriod c y (i, code)).startD =
        (if i = 0 then thirdFriday (y - 1) 12
         else thirdFriday y (3 * (i : Int))) - 1 ∧
      (quarterPeriod c y (i, code)).endD =
        thirdFriday y (3 * ((i : Int) + 1)) - 2 ∧
      (quarterPeriod c y (i, code)).ticker =
        c ++ code ++ toString (Int.tmod y 10) := by
  have hmem : ∀ ic ∈ codes.enum,
      quarterPeriod c y ic ∈ contractPeriods yb ye c := by
    intro ic hic
    rw [contractPeriods]
    simp only [List.mem_flatMap, List.mem_map]
    exact ⟨y, mem_intRange.mpr ⟨hy1, hy2⟩, ic, hic, rfl⟩
  interval_cases i
  · refine ⟨"H", rfl, hmem _ (by rw [codes_enum]; norm_num), ?_, ?_, rfl⟩ <;>
      (simp only [quarterPeriod]; norm_num)
  · refine ⟨"M", rfl, hmem _ (by rw [codes_enum]; norm_num), ?_, ?_, rfl⟩ <;>
      (simp only [quarterPeriod]; norm_num)
  · refine ⟨"U", rfl, hmem _ (by rw [codes_enum]; norm_num), ?_, ?_, rfl⟩ <;>
      (simp only [quarterPeriod]; norm_num)
  · refine ⟨"Z", rfl, hmem _ (by rw [codes_enum]; norm_num), ?_, ?_, rfl⟩ <;>
      (simp only [quarterPeriod]; norm_num)

/-- C5 witness: root "Si", code "H", year 2024 gives ticker "SiH4", and the
period is emitted for the 2024..2024 range. -/
theorem c5_witness :
    (quarterPeriod "Si" 2024 (0, "H")).ticker = "SiH4" ∧
    quarterPeriod "Si" 2024 (0, "H") ∈ contractPeriods 2024 2025 "Si" := by
  obtain ⟨code, hc, hmem, _, _, ht⟩ :=
    c5_contract_partition 2024 2025 2024 "Si" 0 (by norm_num) (by norm_num)
      (by norm_num)
  have hcode : "H" = code := by
    simpa [codes] using hc
  subst hcode
  exact ⟨by rw [ht]; decide, hmem⟩

/-- C7: for both instrument classes and every year range, the emitted
period sequence is well-formed (start ≤ end) and pairwise strictly
increasing and non-overlapping (each period ends strictly before every
later period starts). -/
theorem c7_periods_ordered :
    (∀ yb ye (c : String),
      (∀ p ∈ contractPeriods yb ye c, p.startD ≤ p.endD) ∧
      (contractPeriods yb ye c).Pairwise (fun p q => p.endD < q.startD)) ∧
    (∀ ys ye now (s : String),
      (∀ p ∈ equityPeriods ys ye now s, p.startD ≤ p.endD) ∧
      (equityPeriods ys ye now s).Pairwise (fun p q => p.endD < q.startD)) := by
  constructor
  · intro yb ye c
    exact ⟨contract_wf c yb ye,
      pairwise_of_chain _ (contract_wf c yb ye) (contract_chain c yb ye)⟩
  · intro ys ye now s
    have hsub := equityPeriods_sublist ys ye now s
    have hwf := equityAll_wf ys ye s
    refine ⟨fun p hp => hwf p (hsub.subset hp), ?_⟩
    exact List.Pairwise.sublist hsub
      (pairwise_of_chain _ hwf (equityAll_chain ys ye s))

/-- C7 witness: concrete instances of both conjuncts. -/
theorem c7_witness :
    (quarterPeriod "Si" 2016 (0, "H")).startD ≤
      (quarterPeriod "Si" 2016 (0, "H")).endD ∧
    (monthPeriod "SBER" 2024 1).startD ≤ (monthPeriod "SBER" 2024 1).endD := by
  constructor
  · exact (c7_periods_ordered.1 2016 2017 "Si").1 _ (by decide)
  · exact (c7_periods_ordered.2 2024 2024 (goDate 2024 6 1) "SBER").1 _
      (by decide)

/-- C2 counterexample: the derivative pipeline applies no bound against the
current date.  With "now" = 2016-01-01, `ProcessContracts` for 2016 still
emits (and fetches) the SiM6 period, whose start (the day before the third
Friday of March 2016) is after now. -/
theorem c2_counterexample :
    quarterPeriod "Si" 2016 (1, "M") ∈ contractPeriods 2016 2017 "Si" ∧
    goDate 2016 1 1 < (quarterPeriod "Si" 2016 (1, "M")).startD := by decide

/-- C2 (amended): only the equity pipeline skips future periods — every
period it fetches starts on or before `now`; the derivative pipeline emits
every period of the configured year range unconditionally, with no
comparison against the current date. -/
theorem c2_amended :
    (∀ ys ye now (s : String), ∀ p ∈ equityPeriods ys ye now s,
      p.startD ≤ now) ∧
    (∀ yb ye (c : String) (y : Int) (ic : Nat × String), yb ≤ y → y < ye →
      ic ∈ codes.enum → quarterPeriod c y ic ∈ contractPeriods yb ye c) := by
  constructor
  · intro ys ye now s p hp
    rw [equityPeriods] at hp
    simp only [List.mem_flatMap, List.mem_filterMap] at hp
    obtain ⟨y, _, m, _, heq⟩ := hp
    by_cases h : now < goDate y m 1
    · rw [if_pos h] at heq
      exact absurd heq (by simp)
    · rw [if_neg h] at heq
      have hpm : monthPeriod s y m = p := by injection heq
      rw [← hpm]
      simp only [monthPeriod]
      omega
  · intro yb ye c y ic hy1 hy2 hic
    rw [contractPeriods]
    simp only [List.mem_flatMap, List.mem_map]
    exact ⟨y, mem_intRange.mpr ⟨hy1, hy2⟩, ic, hic, rfl⟩

/-- C2 witness: a concrete equity period is bounded by now, and a concrete
derivative period is emitted. -/
theorem c2_witness :
    (monthPeriod "SBER" 2024 5).startD ≤ goDate 2024 6 1 ∧
    quarterPeriod "Si" 2020 (2, "U") ∈ contractPeriods 2016 2026 "Si" := by
  constructor
  · exact c2_amended.1 2024 2024 (goDate 2024 6 1) "SBER" _ (by decide)
  · exact c2_amended.2 2016 2026 "Si" 2020 (2, "U") (by norm_num) (by norm_num)
      (by decide)

/-! ### Claim theorems: pagination -/

/-- Decidable equality of fetch results (used by the executable test
instances). -/
instance exceptDecEq {ε α : Type} [DecidableEq ε] [DecidableEq α] :
    DecidableEq (Except ε α) := fun x y =>
  match x, y with
  | .error a, .error b =>
    if h : a = b then isTrue (by rw [h]) else isFalse (by simp [h])
  | .error _, .ok _ => isFalse (by simp)
  | .ok _, .error _ => isFalse (by simp)
  | .ok a, .ok b =>
    if h : a = b then isTrue (by rw [h]) else isFalse (by simp [h])

lemma rowA_parse : parseRow testParsers hdr6 rowA = .ok candleA := by decide

/-- A page of `n` copies of `rowA` parses to `n` copies of `candleA`,
whatever the status, under the library fetcher (no status check). -/
lemma pageBody_candles (stat : Nat) (n : Nat) :
    pageCandles false testParsers (Resp.ok stat (pageBody n)) =
      .ok (List.replicate n candleA) := by
  show parseRows testParsers hdr6 (List.replicate n rowA) = _
  exact parseRows_replicate testParsers hdr6 rowA candleA (by decide) rowA_parse n

/-- Synthetic source: 500 rows at offset 0, then 0 rows. -/
def srcA : Nat → Resp := fun o =>
  if o = 0 then .ok 200 (pageBody 500) else .ok 200 (pageBody 0)

/-- Synthetic source: 500 rows at offset 0, then 10 rows. -/
def srcB : Nat → Resp := fun o =>
  if o = 0 then .ok 200 (pageBody 500) else .ok 200 (pageBody 10)

/-- Synthetic source: always 10 rows. -/
def srcC : Nat → Resp := fun _ => .ok 200 (pageBody 10)

/-- The requested offsets of a finished fetch, with the record list
summarised by its length. -/
def sumFetch (src : Nat → Resp) (fuel : Nat) :
    Option (List Nat × Except FErr Nat) :=
  (Fetch testParsers src fuel).map (fun pr => (pr.1, pr.2.map List.length))

lemma srcA_fetch :
    Fetch testParsers srcA 2 =
      some ([0, 500], .ok (List.replicate 500 candleA)) := by
  have h0 : batchAt false testParsers srcA 0 =
      .ok (List.replicate 500 candleA) := pageBody_candles 200 500
  have h500 : batchAt false testParsers srcA 500 =
      .ok (List.replicate 0 candleA) := pageBody_candles 200 0
  rw [Fetch, fetchLoop, h0]
  simp only []
  simp only [List.length_replicate]
  rw [if_neg (by norm_num), fetchLoop]
  rw [show batchAt false testParsers srcA (0 + 500) =
    .ok (List.replicate 0 candleA) from h500]
  simp only []
  simp only [List.length_replicate]
  rw [if_pos (by norm_num)]
  simp only [List.replicate_zero, List.append_nil, List.nil_append,
    List.cons_append, Nat.zero_add]

lemma srcB_fetch :
    Fetch testParsers srcB 2 =
      some ([0, 500],
        .ok (List.replicate 500 candleA ++ List.replicate 10 candleA)) := by
  have h0 : batchAt false testParsers srcB 0 =
      .ok (List.replicate 500 candleA) := pageBody_candles 200 500
  have h500 : batchAt false testParsers srcB 500 =
      .ok (List.replicate 10 candleA) := pageBody_candles 200 10
  rw [Fetch, fetchLoop, h0]
  simp only []
  simp only [List.length_replicate]
  rw [if_neg (by norm_num), fetchLoop]
  rw [show batchAt false testParsers srcB (0 + 500) =
    .ok (List.replicate 10 candleA) from h500]
  simp only []
  simp only [List.length_replicate]
  rw [if_pos (by norm_num)]
  simp only [List.nil_append, List.cons_append, Nat.zero_add]

lemma srcC_fetch :
    Fetch testParsers srcC 1 =
      some ([0], .ok (List.replicate 10 candleA)) := by
  have h0 : batchAt false testParsers srcC 0 =
      .ok (List.replicate 10 candleA) := pageBody_candles 200 10
  rw [Fetch, fetchLoop, h0]
  simp only []
  simp only [List.length_replicate]
  rw [if_pos (by norm_num)]
  simp only [List.nil_append]

set_option maxRecDepth 4000 in
/-- C1: pagination follows the count-based stop rule.  For every finished
fetch: the first request is at row offset 0; every page before the last
parsed to at least 500 rows and the next offset advances by exactly that
page's row count; a successful result means the last page parsed below 500
rows and the records are the concatenation of all pages in request order.
In particular, 500 rows then 0 rows yields 500 records via two requests
(offsets 0 and 500); 500 then 10 yields 510 records via two requests; 10
rows on page one yields 10 records via one request. -/
theorem c1_pagination :
    (∀ (D P V : Type) (ps : Parsers D P V) (src : Nat → Resp) fuel offs res,
      Fetch ps src fuel = some (offs, res) →
      offs.head? = some 0 ∧
      (∀ k o o', offs[k]? = some o → offs[k + 1]? = some o' →
        ∃ b, batchAt false ps src o = .ok b ∧ 500 ≤ b.length ∧
          o' = o + b.length) ∧
      (∀ out, res = .ok out →
        (∃ olast b, offs.getLast? = some olast ∧
          batchAt false ps src olast = .ok b ∧ b.length < 500) ∧
        out = (offs.map (fun o => batchOr (batchAt false ps src o))).flatten)) ∧
    sumFetch srcA 2 = some ([0, 500], .ok 500) ∧
    sumFetch srcB 2 = some ([0, 500], .ok 510) ∧
    sumFetch srcC 1 = some ([0], .ok 10) := by
  refine ⟨?_, ?_, ?_, ?_⟩
  · intro D P V ps src fuel offs res h
    obtain ⟨tail, htail, hhead, hadj, olast, hlast, hres⟩ :=
      fetchLoop_spec false ps src fuel 0 [] [] offs res h
    rw [List.nil_append] at htail
    subst htail
    refine ⟨hhead, hadj, ?_⟩
    intro out hout
    rcases hres with ⟨e, he, _⟩ | ⟨b, hb, hblen, hres2⟩
    · rw [hout] at he
      exact absurd he (by simp)
    · rw [hout] at hres2
      refine ⟨⟨olast, b, hlast, hb, hblen⟩, ?_⟩
      rw [List.nil_append] at hres2
      exact Except.ok.inj hres2
  · rw [sumFetch, srcA_fetch]
    rfl
  · rw [sumFetch, srcB_fetch]
    rfl
  · rw [sumFetch, srcC_fetch]
    rfl

/-- C1 witness: the general stop-rule theorem applied to the concrete
one-page source. -/
theorem c1_witness :
    ([0] : List Nat).head? = some 0 ∧
    Fetch testParsers srcC 1 = some ([0], .ok (List.replicate 10 candleA)) :=
  ⟨(c1_pagination.1 String Nat Nat testParsers srcC 1 [0] _ srcC_fetch).1,
    srcC_fetch⟩

/-! ### Claim theorems: termination of the pagination loop -/

lemma stepOff_ok {D P V : Type} {ps : Parsers D P V} {src : Nat → Resp}
    {cs : Bool} {o : Nat} {b : List (Candle D P V)}
    (hb : batchAt cs ps src o = .ok b) :
    stepOff cs ps src o = o + b.length := by
  rw [stepOff, hb]

/-- If the trace from `o` reaches a below-500 page within `k` steps, the
loop finishes with fuel `k + 1`. -/
lemma fetch_terminates_aux {D P V : Type} (ps : Parsers D P V)
    (src : Nat → Resp) :
    ∀ (k o : Nat) (offs : List Nat) (acc : List (Candle D P V)),
      (∃ b, batchAt false ps src (traceOffFrom false ps src o k) = .ok b ∧
        b.length < 500) →
      ∃ r, fetchLoop false ps src (k + 1) o offs acc = some r := by
  intro k
  induction k with
  | zero =>
    intro o offs acc hterm
    obtain ⟨b, hb, hlen⟩ := hterm
    rw [show traceOffFrom false ps src o 0 = o from rfl] at hb
    refine ⟨(offs ++ [o], .ok (acc ++ b)), ?_⟩
    rw [fetchLoop, hb]
    simp only []
    rw [if_pos hlen]
  | succ k ih =>
    intro o offs acc hterm
    cases hb : batchAt false ps src o with
    | error e =>
      refine ⟨(offs ++ [o], .error e), ?_⟩
      rw [fetchLoop, hb]
    | ok b =>
      by_cases hlen : b.length < 500
      · refine ⟨(offs ++ [o], .ok (acc ++ b)), ?_⟩
        rw [fetchLoop, hb]
        simp only []
        rw [if_pos hlen]
      · have hstep : traceOffFrom false ps src o (k + 1) =
            traceOffFrom false ps src (o + b.length) k := by
          rw [traceOffFrom, stepOff_ok hb]
        rw [hstep] at hterm
        obtain ⟨r, hr⟩ := ih (o + b.length) (offs ++ [o]) (acc ++ b) hterm
        refine ⟨r, ?_⟩
        rw [fetchLoop, hb]
        simp only []
        rw [if_neg hlen]
        exact hr

/-- If every page along the trace parses to at least 500 rows, no fuel
finishes the loop. -/
lemma fetch_diverges_aux {D P V : Type} (ps : Parsers D P V)
    (src : Nat → Resp) :
    ∀ (fuel o : Nat) (offs : List Nat) (acc : List (Candle D P V)),
      (∀ k, ∃ b, batchAt false ps src (traceOffFrom false ps src o k) =
        .ok b ∧ 500 ≤ b.length) →
      fetchLoop false ps src fuel o offs acc = none := by
  intro fuel
  induction fuel with
  | zero => intro o offs acc _; rfl
  | succ fuel ih =>
    intro o offs acc h
    obtain ⟨b, hb, hlen⟩ := h 0
    rw [show traceOffFrom false ps src o 0 = o from rfl] at hb
    rw [fetchLoop, hb]
    simp only []
    rw [if_neg (by omega)]
    apply ih
    intro k
    have hstep : traceOffFrom false ps src o (k + 1) =
        traceOffFrom false ps src (o + b.length) k := by
      rw [traceOffFrom, stepOff_ok hb]
    exact hstep ▸ h (k + 1)

/-- C10: the fetch of one instrument-period terminates precisely under the
count-based stop rule: if some page along the offset trace parses to fewer
than 500 rows, some fuel finishes the fetch (it is total under that
precondition); if every page along the trace parses to 500 or more rows,
the pagination loop runs forever — no page-count or total-row bound
exists. -/
theorem c10_termination :
    (∀ (D P V : Type) (ps : Parsers D P V) (src : Nat → Resp),
      (∃ k b, batchAt false ps src (traceOffFrom false ps src 0 k) = .ok b ∧
        b.length < 500) →
      ∃ fuel r, Fetch ps src fuel = some r) ∧
    (∀ (D P V : Type) (ps : Parsers D P V) (src : Nat → Resp),
      (∀ k, ∃ b, batchAt false ps src (traceOffFrom false ps src 0 k) =
        .ok b ∧ 500 ≤ b.length) →
      ∀ fuel, Fetch ps src fuel = none) := by
  constructor
  · intro D P V ps src ⟨k, b, hb, hlen⟩
    obtain ⟨r, hr⟩ := fetch_terminates_aux ps src k 0 [] [] ⟨b, hb, hlen⟩
    exact ⟨k + 1, r, hr⟩
  · intro D P V ps src h fuel
    exact fetch_diverges_aux ps src fuel 0 [] [] h

/-- C10 witness: the termination half applied to the concrete always-10-row
source. -/
theorem c10_witness : ∃ fuel r, Fetch testParsers srcC fuel = some r :=
  c10_termination.1 String Nat Nat testParsers srcC
    ⟨0, List.replicate 10 candleA, pageBody_candles 200 10, by norm_num⟩

/-! ### Claim theorems: error handling -/

lemma pageCandles_status {D P V : Type} (ps : Parsers D P V)
    (stat : Nat) (rows : List (List String)) (h : stat ≠ 200) :
    pageCandles true ps (.ok stat rows) = .error .status := by
  simp [pageCandles, h]

lemma pageCandles_transport {D P V : Type} (cs : Bool) (ps : Parsers D P V) :
    pageCandles cs ps .transportErr = .error .network := rfl

/-- A source whose responses carry HTTP status 500 with a well-formed
body. -/
def srcBad : Nat → Resp := fun _ => .ok 500 (pageBody 1)

/-- C3 counterexample: `Fetcher.Fetch` never inspects the HTTP status code
(part_001 lines 42-52 wrap only the transport error).  A response with
non-success status 500 and a parseable body yields records and no
NetworkError. -/
theorem c3_counterexample :
    Fetch testParsers srcBad 1 = some ([0], .ok [candleA]) := by decide

/-- C3 (amended): the inline `getOHLC` of shares.go does fail with a
NetworkError on any requested page with a non-success status, and both
fetchers fail with a NetworkError on a transport failure; the shared
`Fetcher.Fetch` however never checks the status code (see the
counterexample). -/
theorem c3_amended :
    (∀ (D P V : Type) (ps : Parsers D P V) (src : Nat → Resp) fuel offs res,
      getOHLC ps src fuel = some (offs, res) →
      ∀ o ∈ offs, ∀ stat rows, src o = .ok stat rows → stat ≠ 200 →
        res = .error .status ∧ FErr.status.isNetwork = true) ∧
    (∀ (cs : Bool) (D P V : Type) (ps : Parsers D P V) (src : Nat → Resp)
       fuel offs res,
      fetchLoop cs ps src fuel 0 [] [] = some (offs, res) →
      ∀ o ∈ offs, src o = .transportErr →
        res = .error .network ∧ FErr.network.isNetwork = true) := by
  constructor
  · intro D P V ps src fuel offs res h o ho stat rows hsrc hstat
    obtain ⟨tail, htail, _, hadj, olast, hlast, hres⟩ :=
      fetchLoop_spec true ps src fuel 0 [] [] offs res h
    rw [List.nil_append] at htail
    subst htail
    have hbo : batchAt true ps src o = .error .status := by
      rw [batchAt, hsrc]
      exact pageCandles_status ps stat rows hstat
    obtain ⟨k, hk⟩ := List.mem_iff_getElem?.mp ho
    rcases last_or_next offs k o hk with hlasto | ⟨o', ho'⟩
    · rw [hlast] at hlasto
      obtain rfl : olast = o := Option.some.inj hlasto
      rcases hres with ⟨e, he, hbe⟩ | ⟨b, hb, _, _⟩
      · rw [hbo] at hbe
        obtain rfl : e = FErr.status := (Except.error.inj hbe).symm
        exact ⟨he, rfl⟩
      · rw [hbo] at hb
        exact absurd hb (by simp)
    · obtain ⟨b, hb, _, _⟩ := hadj k o o' hk ho'
      rw [hbo] at hb
      exact absurd hb (by simp)
  · intro cs D P V ps src fuel offs res h o ho hsrc
    obtain ⟨tail, htail, _, hadj, olast, hlast, hres⟩ :=
      fetchLoop_spec cs ps src fuel 0 [] [] offs res h
    rw [List.nil_append] at htail
    subst htail
    have hbo : batchAt cs ps src o = .error .network := by
      rw [batchAt, hsrc]
      exact pageCandles_transport cs ps
    obtain ⟨k, hk⟩ := List.mem_iff_getElem?.mp ho
    rcases last_or_next offs k o hk with hlasto | ⟨o', ho'⟩
    · rw [hlast] at hlasto
      obtain rfl : olast = o := Option.some.inj hlasto
      rcases hres with ⟨e, he, hbe⟩ | ⟨b, hb, _, _⟩
      · rw [hbo] at hbe
        obtain rfl : e = FErr.network := (Except.error.inj hbe).symm
        exact ⟨he, rfl⟩
      · rw [hbo] at hb
        exact absurd hb (by simp)
    · obtain ⟨b, hb, _, _⟩ := hadj k o o' hk ho'
      rw [hbo] at hb
      exact absurd hb (by simp)

/-- C3 witness: the inline fetcher fails with a NetworkError on the
status-500 source. -/
theorem c3_witness :
    getOHLC testParsers srcBad 1 = some ([0], .error FErr.status) ∧
    FErr.status.isNetwork = true := by
  have h : getOHLC testParsers srcBad 1 =
      some ([0], .error FErr.status) := by decide
  exact ⟨h, (c3_amended.1 String Nat Nat testParsers srcBad 1 [0] _ h 0
    (by norm_num) 500 (pageBody 1) rfl (by norm_num)).2⟩

/-- A response whose column header is missing the expected name "begin"
but whose column 0 happens to hold a convertible date. -/
def hdrNoBegin : List String := ["x", "open", "high", "low", "close", "volume"]

/-- Data row matching `hdrNoBegin`. -/
def rowNoBegin : List String := ["2z", "1", "2", "3", "4", "5"]

/-- Source serving the begin-less response. -/
def srcNoBegin : Nat → Resp := fun _ =>
  .ok 200 [["banner"], hdrNoBegin, rowNoBegin]

/-- C4 counterexample: a header missing the expected column "begin" does
NOT produce a ParseError.  The Go map lookup `columns["begin"]` returns
the zero value 0, so the decoder silently reads column 0 ("x"); its cell
converts, and the fetch succeeds. -/
theorem c4_counterexample :
    Fetch testParsers srcNoBegin 1 =
      some ([0], .ok [⟨"2z", 1, 2, 3, 4, 5⟩]) := by decide

/-- C4 (amended): a ParseError is raised when any name-resolved data cell
fails conversion, and any such failure aborts the entire fetch for the
period — a fetch that ends in an error returns no records, and a
successful page parse required every row to decode; a missing expected
column, however, is not itself detected (the lookup falls back to column
index 0). -/
theorem c4_amended :
    (∀ (D P V : Type) (ps : Parsers D P V) (header row : List String),
      (ps.date (cellAt row (colIndex header "begin")) = none ∨
       ps.price (cellAt row (colIndex header "open")) = none ∨
       ps.price (cellAt row (colIndex header "high")) = none ∨
       ps.price (cellAt row (colIndex header "low")) = none ∨
       ps.price (cellAt row (colIndex header "close")) = none ∨
       ps.vol (cellAt row (colIndex header "volume")) = none) →
      ∃ name, parseRow ps header row = .error (.cell name) ∧
        (FErr.cell name).isParse = true) ∧
    (∀ (D P V : Type) (ps : Parsers D P V) (header : List String) rows out,
      parseRows ps header rows = .ok out →
      ∀ r ∈ rows, r.length = header.length ∧
        ∃ c, parseRow ps header r = .ok c) ∧
    (∀ (D P V : Type) (ps : Parsers D P V) (src : Nat → Resp) fuel offs res,
      Fetch ps src fuel = some (offs, res) →
      ∀ o ∈ offs, ∀ e, batchAt false ps src o = .error e →
        res = .error e) := by
  refine ⟨?_, ?_, ?_⟩
  · intro D P V ps header row hfail
    cases hd : ps.date (cellAt row (colIndex header "begin")) with
    | none => exact ⟨"begin", by rw [parseRow, hd], rfl⟩
    | some d =>
    cases ho : ps.price (cellAt row (colIndex header "open")) with
    | none => exact ⟨"open", by rw [parseRow, hd, ho], rfl⟩
    | some o =>
    cases hh : ps.price (cellAt row (colIndex header "high")) with
    | none => exact ⟨"high", by rw [parseRow, hd, ho, hh], rfl⟩
    | some hi =>
    cases hl : ps.price (cellAt row (colIndex header "low")) with
    | none => exact ⟨"low", by rw [parseRow, hd, ho, hh, hl], rfl⟩
    | some lo =>
    cases hc : ps.price (cellAt row (colIndex header "close")) with
    | none => exact ⟨"close", by rw [parseRow, hd, ho, hh, hl, hc], rfl⟩
    | some cl =>
    cases hv : ps.vol (cellAt row (colIndex header "volume")) with
    | none => exact ⟨"volume", by rw [parseRow, hd, ho, hh, hl, hc, hv], rfl⟩
    | some v =>
      rcases hfail with h | h | h | h | h | h
      · rw [h] at hd
        exact absurd hd (by simp)
      · rw [h] at ho
        exact absurd ho (by simp)
      · rw [h] at hh
        exact absurd hh (by simp)
      · rw [h] at hl
        exact absurd hl (by simp)
      · rw [h] at hc
        exact absurd hc (by simp)
      · rw [h] at hv
        exact absurd hv (by simp)
  · intro D P V ps header rows
    induction rows with
    | nil =>
      intro out h r hr
      exact absurd hr (by simp)
    | cons a t ih =>
      intro out h r hr
      rw [parseRows] at h
      by_cases hl : a.length ≠ header.length
      · rw [if_pos hl] at h
        exact absurd h (by simp)
      · rw [if_neg hl] at h
        cases hpa : parseRow ps header a with
        | error e =>
          rw [hpa] at h
          exact absurd h (by simp)
        | ok c =>
          rw [hpa] at h
          cases hpt : parseRows ps header t with
          | error e =>
            rw [hpt] at h
            exact absurd h (by simp)
          | ok cs =>
            rw [hpt] at h
            rcases List.mem_cons.mp hr with rfl | hr'
            · exact ⟨by omega, c, hpa⟩
            · exact ih cs hpt r hr'
  · intro D P V ps src fuel offs res h o ho e hbo
    obtain ⟨tail, htail, _, hadj, olast, hlast, hres⟩ :=
      fetchLoop_spec false ps src fuel 0 [] [] offs res h
    rw [List.nil_append] at htail
    subst htail
    obtain ⟨k, hk⟩ := List.mem_iff_getElem?.mp ho
    rcases last_or_next offs k o hk with hlasto | ⟨o', ho'⟩
    · rw [hlast] at hlasto
      obtain rfl : olast = o := Option.some.inj hlasto
      rcases hres with ⟨e2, he2, hbe2⟩ | ⟨b, hb, _, _⟩
      · rw [hbo] at hbe2
        obtain rfl : e2 = e := (Except.error.inj hbe2).symm
        exact he2
      · rw [hbo] at hb
        exact absurd hb (by simp)
    · obtain ⟨b, hb, _, _⟩ := hadj k o o' hk ho'
      rw [hbo] at hb
      exact absurd hb (by simp)

/-- C4 witness: a malformed volume cell produces a cell ParseError, a
ParseError by the spec taxonomy. -/
theorem c4_witness :
    ∃ name, parseRow testParsers hdr6 ["2a", "1", "2", "3", "4", "x"] =
      .error (.cell name) ∧ (FErr.cell name).isParse = true :=
  c4_amended.1 String Nat Nat testParsers hdr6 ["2a", "1", "2", "3", "4", "x"]
    (by right; right; right; right; right; decide)

/-! ### Claim theorems: column-order independence -/

/-- Row decoding reads the response only through the name-resolved cells of
the six expected columns. -/
lemma parseRow_congr {D P V : Type} (ps : Parsers D P V)
    (h₁ h₂ r₁ r₂ : List String)
    (hc : ∀ name ∈ requiredCols,
      cellAt r₂ (colIndex h₂ name) = cellAt r₁ (colIndex h₁ name)) :
    parseRow ps h₂ r₂ = parseRow ps h₁ r₁ := by
  have hb := hc "begin" (by decide)
  have ho := hc "open" (by decide)
  have hh := hc "high" (by decide)
  have hl := hc "low" (by decide)
  have hcl := hc "close" (by decide)
  have hv := hc "volume" (by decide)
  rw [parseRow, parseRow, hb, ho, hh, hl, hcl, hv]

/-- Page decoding reads the response only through row/header lengths and
the name-resolved cells. -/
lemma parseRows_congr {D P V : Type} (ps : Parsers D P V)
    (h₁ h₂ : List String) (hlen : h₂.length = h₁.length) :
    ∀ (rs₁ rs₂ : List (List String)),
      rs₂.length = rs₁.length →
      (∀ (k : Nat) (r₁ r₂ : List String), rs₁[k]? = some r₁ →
        rs₂[k]? = some r₂ →
        r₂.length = r₁.length ∧
        ∀ name ∈ requiredCols,
          cellAt r₂ (colIndex h₂ name) = cellAt r₁ (colIndex h₁ name)) →
      parseRows ps h₂ rs₂ = parseRows ps h₁ rs₁ := by
  intro rs₁
  induction rs₁ with
  | nil =>
    intro rs₂ hn _
    rw [List.length_nil, List.length_eq_zero] at hn
    rw [hn]
    rfl
  | cons a t ih =>
    intro rs₂ hn hcells
    cases rs₂ with
    | nil => exact absurd hn (by simp)
    | cons b u =>
      obtain ⟨hab, hnames⟩ := hcells 0 a b (by simp) (by simp)
      rw [parseRows, parseRows]
      rw [parseRow_congr ps h₁ h₂ a b hnames]
      rw [ih u (by simpa using hn)
        (fun k r₁ r₂ hr₁ hr₂ => hcells (k + 1) r₁ r₂ (by simpa using hr₁)
          (by simpa using hr₂))]
      rw [hab, hlen]

/-- A canonical response and a column-permuted variant of it (same rows,
second header row permuted, each data row's cells permuted accordingly);
all six expected names are present. -/
def hdrQ : List String := ["open", "close", "begin", "high", "volume", "low"]

/-- `rowA` under the permutation taking `hdr6` to `hdrQ`. -/
def rowQ : List String := ["1", "4", "2t", "2", "5", "3"]

/-- C8 counterexample: column-order independence fails in general.  When a
required name is absent ("begin" here), the lookup falls back to column 0,
so the two responses below — identical rows, with the header and every
data row permuted by swapping the first two columns — both parse
successfully but to different Candle values. -/
theorem c8_counterexample :
    pageCandles false testParsers
        (.ok 200 [["banner"],
          ["x", "y", "open", "high", "low", "close", "volume"],
          ["2A", "2B", "1", "2", "3", "4", "5"]]) ≠
      pageCandles false testParsers
        (.ok 200 [["banner"],
          ["y", "x", "open", "high", "low", "close", "volume"],
          ["2B", "2A", "1", "2", "3", "4", "5"]]) := by decide

/-- C8 (amended): parsing is column-order independent whenever the six
expected columns are resolved to the same cells by name lookup: two
responses of equal header width whose rows pairwise agree on length and on
every name-resolved cell parse to identical Candle sequences.  In
particular a concrete permuted response with all six names present parses
identically to the canonical order; when a required name is missing the
index falls back to column 0 and permutation can change the result (see
the counterexample). -/
theorem c8_amended :
    (∀ (D P V : Type) (ps : Parsers D P V) (h₁ h₂ : List String)
       (rs₁ rs₂ : List (List String)),
      h₂.length = h₁.length →
      rs₂.length = rs₁.length →
      (∀ (k : Nat) (r₁ r₂ : List String), rs₁[k]? = some r₁ →
        rs₂[k]? = some r₂ →
        r₂.length = r₁.length ∧
        ∀ name ∈ requiredCols,
          cellAt r₂ (colIndex h₂ name) = cellAt r₁ (colIndex h₁ name)) →
      parseRows ps h₂ rs₂ = parseRows ps h₁ rs₁) ∧
    pageCandles false testParsers (.ok 200 [["banner"], hdrQ, rowQ]) =
      pageCandles false testParsers (.ok 200 [["banner"], hdr6, rowA]) := by
  constructor
  · intro D P V ps h₁ h₂ rs₁ rs₂ hh hn hcells
    exact parseRows_congr ps h₁ h₂ hh rs₁ rs₂ hn hcells
  · decide

/-- C8 witness: the congruence half applied to the concrete permuted
pair. -/
theorem c8_witness :
    parseRows testParsers hdrQ [rowQ] = parseRows testParsers hdr6 [rowA] :=
  c8_amended.1 String Nat Nat testParsers hdr6 hdrQ [rowA] [rowQ]
    (by decide) (by decide)
    (fun k r₁ r₂ hr₁ hr₂ => by
      cases k with
      | zero =>
        obtain rfl : rowA = r₁ := Option.some.inj hr₁
        obtain rfl : rowQ = r₂ := Option.some.inj hr₂
        exact ⟨by decide, by decide⟩
      | succ k =>
        exact absurd hr₁ (by simp))

/-! ### Claim theorems: output file header -/

/-- C9: the header line is written exactly once, before any data line, and
only when the file is newly created.  Under the derivative Replace policy
the old file is deleted and the result is always the header followed by
the data lines; under the equity Append policy a missing file is created
with the header first, while an existing file keeps its content and gets
no second header. -/
theorem c9_file_header :
    (∀ (fs0 : FS) (pls : List (List String)),
      contractsWorkerFile fs0 pls = some (headerLine :: pls.flatten)) ∧
    (∀ pls : List (List String),
      sharesWorkerFile none pls = some (headerLine :: pls.flatten)) ∧
    (∀ (c : List String) (pls : List (List String)),
      sharesWorkerFile (some c) pls = some (c ++ pls.flatten)) ∧
    (∀ (fs0 : FS) (pls : List (List String)),
      headerLine ∉ pls.flatten →
      ∃ out, contractsWorkerFile fs0 pls = some out ∧
        out.head? = some headerLine ∧ out.count headerLine = 1) ∧
    (∀ (c : List String) (pls : List (List String)),
      ∃ out, sharesWorkerFile (some c) pls = some out ∧
        out.count headerLine =
          c.count headerLine + pls.flatten.count headerLine) := by
  have hcontract : ∀ (fs0 : FS) (pls : List (List String)),
      contractsWorkerFile fs0 pls = some (headerLine :: pls.flatten) := by
    intro fs0 pls
    rw [contractsWorkerFile]
    show pls.foldl _ (appendLines (some []) [headerLine]) = _
    rw [show appendLines (some []) [headerLine] = some [headerLine] by rfl]
    rw [foldl_contractsAppend [headerLine] pls]
    rfl
  have hshareNew : ∀ pls : List (List String),
      sharesWorkerFile none pls = some (headerLine :: pls.flatten) := by
    intro pls
    rw [sharesWorkerFile]
    show pls.foldl appendLines (some [headerLine]) = _
    rw [foldl_appendLines [headerLine] pls]
    rfl
  have hshareOld : ∀ (c : List String) (pls : List (List String)),
      sharesWorkerFile (some c) pls = some (c ++ pls.flatten) := by
    intro c pls
    rw [sharesWorkerFile]
    show pls.foldl appendLines (some c) = _
    rw [foldl_appendLines c pls]
  refine ⟨hcontract, hshareNew, hshareOld, ?_, ?_⟩
  · intro fs0 pls hnot
    refine ⟨headerLine :: pls.flatten, hcontract fs0 pls, rfl, ?_⟩
    rw [List.count_cons_self, List.count_eq_zero.mpr hnot]
  · intro c pls
    exact ⟨c ++ pls.flatten, hshareOld c pls, List.count_append _ _ _⟩

/-- C9 witness: both policies on a concrete two-period run over an
existing stale file. -/
theorem c9_witness :
    contractsWorkerFile (some ["stale"]) [["d1"], ["d2"]] =
      some [headerLine, "d1", "d2"] ∧
    sharesWorkerFile (some [headerLine, "old"]) [["d1"], ["d2"]] =
      some [headerLine, "old", "d1", "d2"] := by
  constructor
  · exact c9_file_header.1 (some ["stale"]) [["d1"], ["d2"]]
  · exact c9_file_header.2.2.1 [headerLine, "old"] [["d1"], ["d2"]]

end Moex
